import Mathlib

/-!
Shallow embedding of the news_analyzer collection/persistence core:
  - `RSSCollector._remove_duplicates` and `MofcomCollector._dedupe`
    (link-based deduplication),
  - `RSSCollector.fetch_all` / `MofcomCollector.fetch_all` (per-source
    failure isolation),
  - `RSSCollector._parse_entry` with `_clean_html` (feed-entry
    normalization),
  - `OrgCollector._fetch_world_bank` per-entry title/description
    normalization,
  - `MofcomCollector._collect_paginated_pages` (pagination partial
    success),
  - `NewsStorage.save_news` / `load_news` over an explicit database
    state (batch rows plus item rows with a global unique index on
    `link`).
Machine-level effects (HTTP, the PostgreSQL wire protocol, Playwright)
are replaced by explicit inputs/oracles; the control flow and the
record-shaping logic are translated statement by statement from the
Python source.
-/

/-- The canonical news item shape produced by the collectors: all fields are
strings, mirroring the dict literal built in `RSSCollector._parse_entry` and
`MofcomCollector._parse_news`.  A missing `link` key is modelled as `""`
(the collectors read it with `item.get('link')` / `item.get('link', '')`,
treating missing and empty alike as falsy). -/
structure NewsItem where
  title : String
  link : String
  description : String
  pub_date : String
  source_name : String
  source_url : String
  category : String
  collected_at : String
deriving DecidableEq, Repr

/-- `MofcomCollector._dedupe` loop: walks the items keeping a `seen_links`
set; an item whose link is falsy (`""`) or already seen is skipped, otherwise
it is appended to `unique` and its link added to `seen_links`.  The Python
`set` is modelled as a list queried by membership. -/
def dedupeGo (seen : List String) : List NewsItem → List NewsItem
  | [] => []
  | item :: rest =>
    if item.link = "" ∨ item.link ∈ seen then dedupeGo seen rest
    else item :: dedupeGo (item.link :: seen) rest

/-- `MofcomCollector._dedupe(items)`: starts with an empty `seen_links` set. -/
def mofcom_dedupe (items : List NewsItem) : List NewsItem :=
  dedupeGo [] items

/-- `RSSCollector._remove_duplicates` loop body: builds the `unique_items`
dict (insertion-ordered, modelled as an association list appended on the
right); `unique_items[key] = item` is executed only when `key` is truthy and
not yet a key of the dict. -/
def removeDupGo (acc : List (String × NewsItem)) : List NewsItem → List (String × NewsItem)
  | [] => acc
  | item :: rest =>
    if item.link ≠ "" ∧ ¬ (item.link ∈ acc.map Prod.fst) then
      removeDupGo (acc ++ [(item.link, item)]) rest
    else
      removeDupGo acc rest

/-- `RSSCollector._remove_duplicates(news_items)`: returns
`list(unique_items.values())`, i.e. the dict's values in insertion order. -/
def remove_duplicates (news_items : List NewsItem) : List NewsItem :=
  (removeDupGo [] news_items).map Prod.snd

-- ### Source fan-out: `RSSCollector.fetch_all` and `MofcomCollector.fetch_all`

/-- A configured source as built by `RSSCollector.add_source` (`source_info`
dict).  Extra passthrough fields are omitted; the collection loop reads only
`source_type`, the fetch path, and the metadata copied into items. -/
structure Source where
  url : String
  name : String
  category : String
  is_user_added : Bool
  provider : String
  priority : Nat
  source_type : String
deriving DecidableEq, Repr

/-- The per-source loop of `RSSCollector.fetch_all`: non-`rss` sources are
skipped; each remaining source's `_fetch_rss` runs inside `try/except`, so a
raising source contributes nothing and the loop continues.  The network side
of `_fetch_rss` is an oracle `fetch` returning either the parsed item list or
the raised exception. -/
def rssCollect (fetch : Source → Except String (List NewsItem)) :
    List Source → List NewsItem
  | [] => []
  | s :: rest =>
    if s.source_type ≠ "rss" then rssCollect fetch rest
    else
      match fetch s with
      | .ok items => items ++ rssCollect fetch rest
      | .error _ => rssCollect fetch rest

/-- `RSSCollector.fetch_all`: accumulate `all_news` across sources, then
apply `_remove_duplicates`. -/
def rss_fetch_all (sources : List Source)
    (fetch : Source → Except String (List NewsItem)) : List NewsItem :=
  remove_duplicates (rssCollect fetch sources)

/-- The merge loop of `MofcomCollector.fetch_all` after
`asyncio.gather(..., return_exceptions=True)`: results that are exceptions
are logged and skipped, the rest are concatenated in source order. -/
def mofcomGather : List (Except String (List NewsItem)) → List NewsItem
  | [] => []
  | .ok items :: rest => items ++ mofcomGather rest
  | .error _ :: rest => mofcomGather rest

/-- `MofcomCollector.fetch_all` applied to the per-URL results: concatenate
the successes and `_dedupe` the result. -/
def mofcom_fetch_all (results : List (Except String (List NewsItem))) : List NewsItem :=
  mofcom_dedupe (mofcomGather results)

-- Sample values used by the concrete witnesses below.

def sampleA : NewsItem :=
  { title := "A", link := "1", description := "", pub_date := "",
    source_name := "s", source_url := "u", category := "c", collected_at := "t" }

def sampleB : NewsItem :=
  { title := "B", link := "2", description := "", pub_date := "",
    source_name := "s", source_url := "u", category := "c", collected_at := "t" }

def sampleNoLink : NewsItem :=
  { title := "N", link := "", description := "", pub_date := "",
    source_name := "s", source_url := "u", category := "c", collected_at := "t" }

def c2SrcFail : Source :=
  { url := "u1", name := "S1", category := "c", is_user_added := false,
    provider := "official", priority := 1, source_type := "rss" }

def c2SrcOk : Source :=
  { url := "u2", name := "S2", category := "c", is_user_added := false,
    provider := "official", priority := 2, source_type := "rss" }

def c2Fetch : Source → Except String (List NewsItem) :=
  fun s => if s.priority = 1 then .error "boom" else .ok [sampleA, sampleB, sampleA]

-- ### `NewsStorage`: batch persistence over PostgreSQL

/-- One row of the `news_items` table: `(batch_key, link, data)` (the serial
`id` is the row's position in the list, which also fixes the `ORDER BY id`
read order). -/
structure StoredItem where
  batch_key : String
  link : String
  data : NewsItem
deriving DecidableEq, Repr

/-- The persistent state touched by `NewsStorage`: the `news_batches` rows in
creation (`created_at`) order and the `news_items` rows in `id` order.  The
`CREATE UNIQUE INDEX ... ON news_items(link)` constraint is realized by the
conflict checks in `execInsertRows` below. -/
structure NewsDB where
  batches : List String
  items : List StoredItem
deriving DecidableEq, Repr

/-- The generated batch key `f"news_{timestamp}.json"` used when the caller
passes no (or a falsy) filename. -/
def genBatchKey (now : String) : String :=
  "news_" ++ now ++ ".json"

/-- `if not filename: filename = f"news_{timestamp}.json"` — the effective
batch key: the caller's filename when truthy, else the generated one. -/
def effectiveKey (filename : Option String) (now : String) : String :=
  match filename with
  | some f => if f = "" then genBatchKey now else f
  | none => genBatchKey now

/-- The `insert_rows` accumulation loop of `save_news`: items whose link is
falsy are skipped, the rest become `(filename, link, Json(item))` rows. -/
def buildInsertRows (filename : String) : List NewsItem → List StoredItem
  | [] => []
  | item :: rest =>
    if item.link = "" then buildInsertRows filename rest
    else ⟨filename, item.link, item⟩ :: buildInsertRows filename rest

/-- `executemany("INSERT INTO news_items ... ON CONFLICT (link) DO NOTHING")`:
rows are inserted one after the other; a row whose link already exists in the
table (via the global unique index on `link`) is skipped. -/
def execInsertRows (rows : List StoredItem) : List StoredItem → List StoredItem
  | [] => rows
  | r :: rest =>
    if rows.any (fun q => q.link == r.link) then execInsertRows rows rest
    else execInsertRows (rows ++ [r]) rest

/-- `NewsStorage.save_news(news_items, filename)`: returns the saved batch
key (or `None` for an empty input) together with the updated database.  The
batch row is inserted with `ON CONFLICT (batch_key) DO NOTHING`, item rows
with `ON CONFLICT (link) DO NOTHING`.  The success path is modelled; a
storage exception (which would return `None` and leave partial effects) is
outside the state transition. -/
def save_news (db : NewsDB) (news_items : List NewsItem) (filename : Option String)
    (now : String) : Option String × NewsDB :=
  if news_items = [] then (none, db)
  else
    let fname := effectiveKey filename now
    let batches := if fname ∈ db.batches then db.batches else db.batches ++ [fname]
    let items := execInsertRows db.items (buildInsertRows fname news_items)
    (some fname, ⟨batches, items⟩)

/-- `NewsStorage.load_news(filename)`: resolves a falsy filename to the most
recently created batch key (none → empty result), then returns the `data`
column of that batch's rows in `id` order. -/
def load_news (db : NewsDB) (filename : Option String) : List NewsItem :=
  let bk :=
    match filename with
    | some f => if f = "" then db.batches.getLast? else some f
    | none => db.batches.getLast?
  match bk with
  | none => []
  | some key => (db.items.filter (fun r => r.batch_key == key)).map StoredItem.data

/-- `MofcomCollector.fetch_and_save(storage, batch_key)`: saves the already
fetched (deduplicated) items and returns `(saved_batch, news_items)` plus the
updated storage state. -/
def fetch_and_save (db : NewsDB) (fetched : List NewsItem) (batch_key : Option String)
    (now : String) : (Option String × List NewsItem) × NewsDB :=
  (((save_news db fetched batch_key now).1, fetched), (save_news db fetched batch_key now).2)

def c1ItemB : NewsItem :=
  { title := "C", link := "1", description := "different content", pub_date := "",
    source_name := "s2", source_url := "u2", category := "c", collected_at := "t2" }

def c4DB : NewsDB := ⟨["b0"], [⟨"b0", "1", sampleA⟩]⟩

-- ### `MofcomCollector._collect_paginated_pages`

/-- The `for page_num in range(2, total_pages + 1)` loop of
`_collect_paginated_pages`: each iteration tries `_click_page` followed by
`page.content()` (here the oracle `trans`); on success the pair
`(f"{url}#page-{page_num}", html)` is appended, on the first exception the
loop breaks, keeping only what was collected so far. -/
def collectLoop (trans : Nat → Except String String) (url : String) :
    List Nat → List (String × String)
  | [] => []
  | n :: rest =>
    match trans n with
    | .ok html => (url ++ "#page-" ++ toString n, html) :: collectLoop trans url rest
    | .error _ => []

/-- `MofcomCollector._collect_paginated_pages(page, url)` after the first
page has been loaded (yielding `firstHtml`) and `_extract_total_pages` has
returned `totalPages`: a single-page listing returns just the first page;
otherwise pages 2..totalPages are visited until the first failure. -/
def collect_paginated_pages (url firstHtml : String) (totalPages : Nat)
    (trans : Nat → Except String String) : List (String × String) :=
  let htmlPages := [(url, firstHtml)]
  if totalPages ≤ 1 then htmlPages
  else htmlPages ++ collectLoop trans url (List.range' 2 (totalPages - 1))

def c6Trans : Nat → Except String String :=
  fun m => if m = 3 then .error "timeout" else .ok ("h" ++ toString m)

-- ### `RSSCollector._parse_entry` and `_clean_html`

/-- Python's `\s` on the ASCII range (the regexes in `_clean_html` run on
feed text; the model covers the ASCII whitespace class). -/
def isPyWs (c : Char) : Bool :=
  c = ' ' || c = '\t' || c = '\n' || c = '\r' || c = '\x0B' || c = '\x0C'

mutual

/-- `re.sub(r'<[^>]+>', ' ', text)`: left-to-right scan replacing each
leftmost non-overlapping match with one space; characters not starting a
match are copied verbatim. -/
def removeTagsGo : List Char → List Char
  | [] => []
  | c :: rest =>
    if c = '<' then removeTagsTag [] rest
    else c :: removeTagsGo rest

/-- Inside a candidate match: a `<` has been read and `buf` holds the
(reversed) non-`>` characters consumed by `[^>]+` so far.  A `>` after at
least one such character completes the match (one space); a `>` with an
empty `buf` means `<>` — no match, both characters pass through; running
out of input aborts the candidate and emits it verbatim. -/
def removeTagsTag (buf : List Char) : List Char → List Char
  | [] => '<' :: buf.reverse
  | d :: rest =>
    if d = '>' then
      match buf with
      | [] => '<' :: '>' :: removeTagsGo rest
      | _ :: _ => ' ' :: removeTagsGo rest
    else removeTagsTag (d :: buf) rest

end

/-- `re.sub(r'\s+', ' ', cleaned)`: each maximal whitespace run becomes one
space; the flag records whether the previous character was whitespace. -/
def collapseWsAux : Bool → List Char → List Char
  | _, [] => []
  | prevWs, c :: rest =>
    if isPyWs c then
      if prevWs then collapseWsAux true rest
      else ' ' :: collapseWsAux true rest
    else c :: collapseWsAux false rest

/-- Python `str.strip()` (ASCII whitespace). -/
def pyStrip (s : String) : String :=
  String.mk (((s.data.dropWhile isPyWs).reverse.dropWhile isPyWs).reverse)

/-- `RSSCollector._clean_html(text)`: falsy text gives `""`; otherwise strip
tags, collapse whitespace, and strip the ends. -/
def clean_html (text : String) : String :=
  if text = "" then ""
  else pyStrip (String.mk (collapseWsAux false (removeTagsGo text.data)))

/-- One feedparser content block (`entry.content[0].get('value', '')`). -/
structure ContentBlock where
  value : Option String
deriving DecidableEq, Repr

/-- A parsed feed entry as `_parse_entry` reads it: `Option` models key
presence (`entry.get(k, '')` / `'summary' in entry` / truthiness of
`entry.get('content')`). -/
structure FeedEntry where
  title : Option String
  link : Option String
  summary : Option String
  content : Option (List ContentBlock)
  published : Option String
  updated : Option String
deriving DecidableEq, Repr

/-- Python `a or b` on strings: `a` when non-empty, else `b`. -/
def pyOrStr (a b : String) : String :=
  if a = "" then b else a

/-- `RSSCollector._parse_entry(entry, source)`: rejects entries whose title
or link is missing/empty, otherwise builds the canonical item; `now` stands
for `time.strftime(...)` at normalization time. -/
def parse_entry (entry : FeedEntry) (source : Source) (now : String) : Option NewsItem :=
  if entry.title.getD "" = "" ∨ entry.link.getD "" = "" then none
  else
    let description :=
      if entry.summary.isSome then entry.summary.getD ""
      else
        match entry.content with
        | some (b :: _) => b.value.getD ""
        | _ => ""
    some { title := entry.title.getD "", link := entry.link.getD "",
           description := clean_html description,
           pub_date := pyOrStr (entry.published.getD "") (entry.updated.getD ""),
           source_name := source.name, source_url := source.url,
           category := source.category, collected_at := now }

/-- The entry loop of `_fetch_rss`: parse each entry, keeping non-`None`
results. -/
def parse_entries (entries : List FeedEntry) (source : Source) (now : String) :
    List NewsItem :=
  entries.filterMap (fun e => parse_entry e source now)

def c7Source : Source :=
  { url := "https://feed.example/rss", name := "F", category := "c",
    is_user_added := false, provider := "official", priority := 2,
    source_type := "rss" }

def c7EntryNoTitle : FeedEntry :=
  ⟨none, some "https://feed.example/a", some "<p>body</p>", none, some "2024-01-01", none⟩

-- ### `OrgCollector._fetch_world_bank`: dynamic JSON record shapes

/-- The JSON-ish values `resp.json()` can put in an entry's fields. -/
inductive JVal where
  | jnull
  | jbool (b : Bool)
  | jnum (n : Int)
  | jstr (s : String)
  | jlist (xs : List JVal)
  | jdict (kvs : List (String × JVal))

/-- Python truthiness on these values (`or` chains and `if not title`). -/
def pyTruthy : JVal → Bool
  | .jnull => false
  | .jbool b => b
  | .jnum n => n != 0
  | .jstr s => s != ""
  | .jlist xs => !xs.isEmpty
  | .jdict kvs => !kvs.isEmpty

/-- A single-quote string, written without a quote character literal. -/
def pyQuote : String := String.singleton (Char.ofNat 39)

mutual

/-- Python `repr` on the JSON fragment (string escaping is not modelled: a
string renders between plain single quotes). -/
def pyRepr : JVal → String
  | .jnull => "None"
  | .jbool true => "True"
  | .jbool false => "False"
  | .jnum n => toString n
  | .jstr s => pyQuote ++ s ++ pyQuote
  | .jlist xs => "[" ++ pyReprList xs ++ "]"
  | .jdict kvs => "\x7b" ++ pyReprDict kvs ++ "\x7d"

def pyReprList : List JVal → String
  | [] => ""
  | [x] => pyRepr x
  | x :: xs => pyRepr x ++ ", " ++ pyReprList xs

def pyReprDict : List (String × JVal) → String
  | [] => ""
  | [(k, v)] => pyQuote ++ k ++ pyQuote ++ ": " ++ pyRepr v
  | (k, v) :: kvs => pyQuote ++ k ++ pyQuote ++ ": " ++ pyRepr v ++ ", " ++ pyReprDict kvs

end

/-- Python `str()` on the JSON fragment: identity on strings, `repr`-like
otherwise (`str(None) = "None"`, `str(3) = "3"`, containers render
recursively). -/
def pyStr : JVal → String
  | .jstr s => s
  | v => pyRepr v

/-- `dict.get(k)` on a JSON object (association list; keys unique in a real
dict, the first binding wins here). -/
def dget (kvs : List (String × JVal)) (k : String) : Option JVal :=
  (kvs.find? (fun p => p.fst == k)).map Prod.snd

/-- `entry.get(k)` with Python's `None` default. -/
def jget (kvs : List (String × JVal)) (k : String) : JVal :=
  (dget kvs k).getD .jnull

/-- Python `a or b` on JSON values. -/
def pyOr (a b : JVal) : JVal :=
  if pyTruthy a then a else b

/-- `[t for t in raw if isinstance(t, str)]`. -/
def jstrParts (xs : List JVal) : List String :=
  xs.filterMap (fun t => match t with | .jstr s => some s | _ => none)

/-- Title normalization in `_fetch_world_bank`: a list joins its string
elements with single spaces; a dict resolves `get("value", "") or
get("0", "")`; anything else is stringified. -/
def wbNormTitle : JVal → JVal
  | .jlist xs => .jstr (" ".intercalate (jstrParts xs))
  | .jdict m =>
      pyOr ((dget m "value").getD (.jstr "")) ((dget m "0").getD (.jstr ""))
  | v => .jstr (pyStr v)

/-- Description normalization in `_fetch_world_bank`: a list joins its
string elements with single spaces; anything else is stringified. -/
def wbNormDescr : JVal → String
  | .jlist xs => " ".intercalate (jstrParts xs)
  | v => pyStr v

/-- The fields of an org source descriptor consumed by `_build_item`. -/
structure OrgSource where
  name : String
  url : String
  category : String
deriving DecidableEq, Repr

/-- The item built by `OrgCollector._build_item` for a World Bank entry.
`title`, `link` and `pub_date` keep the dynamic value the Python code passes
through unchecked; `description` is always a string. -/
structure WbItem where
  title : JVal
  link : JVal
  description : String
  pub_date : JVal
  source_name : String
  source_url : String
  category : String
  collected_at : String

/-- The loop body of `_fetch_world_bank` for one JSON record: normalize
title and description, resolve link and date by `or` chains, skip the entry
when title or link is falsy, otherwise build the item (`_build_item` strips
the description). -/
def wbEntryToItem (source : OrgSource) (now : String)
    (entry : List (String × JVal)) : Option WbItem :=
  let rawTitle := pyOr (jget entry "title") (.jstr "")
  let title := wbNormTitle rawTitle
  let rawDescr := pyOr (pyOr (jget entry "descr") (jget entry "content")) (.jstr "")
  let description := wbNormDescr rawDescr
  let link := pyOr (pyOr (jget entry "url") (jget entry "link")) (.jstr "")
  let pub_date :=
    pyOr (pyOr (pyOr (jget entry "lnchdt") (jget entry "date"))
      (jget entry "publishedDate")) (.jstr "")
  if !pyTruthy title || !pyTruthy link then none
  else
    some { title := title, link := link, description := pyStrip description,
           pub_date := pub_date, source_name := source.name,
           source_url := source.url, category := source.category,
           collected_at := now }

/-- The `for entry in iterable` loop of `_fetch_world_bank` over JSON-object
records: entries that pass the title/link gate are appended in order. -/
def wb_process_entries (source : OrgSource) (now : String)
    (entries : List (List (String × JVal))) : List WbItem :=
  entries.filterMap (wbEntryToItem source now)

def c8Source : OrgSource :=
  { name := "World Bank", url := "https://wb.example/api", category := "org" }

def c8Entry : List (String × JVal) :=
  [("title", .jlist [.jstr "Global", .jstr "Report"]),
   ("url", .jstr "https://wb.example/doc1")]

-- ### Helper lemmas about the two dedupe loops

/-- `dedupeGo` only consults the seen set through membership, so any two
extensionally equal seen sets give the same result (the Python `set` has no
order). -/
theorem dedupeGo_seen_congr (xs : List NewsItem) :
    ∀ s₁ s₂ : List String, (∀ l, l ∈ s₁ ↔ l ∈ s₂) →
      dedupeGo s₁ xs = dedupeGo s₂ xs := by
  induction xs with
  | nil => intro s₁ s₂ _; rfl
  | cons item rest ih =>
    intro s₁ s₂ h
    by_cases hl : item.link = "" ∨ item.link ∈ s₁
    · have hl₂ : item.link = "" ∨ item.link ∈ s₂ := by
        rcases hl with h0 | hm
        · exact Or.inl h0
        · exact Or.inr ((h item.link).mp hm)
      simp only [dedupeGo, if_pos hl, if_pos hl₂]
      exact ih s₁ s₂ h
    · have hl₂ : ¬ (item.link = "" ∨ item.link ∈ s₂) := by
        intro hc
        rcases hc with h0 | hm
        · exact hl (Or.inl h0)
        · exact hl (Or.inr ((h item.link).mpr hm))
      simp only [dedupeGo, if_neg hl, if_neg hl₂]
      refine congrArg _ (ih _ _ ?_)
      intro l
      constructor
      · intro hm
        rcases List.mem_cons.mp hm with h1 | h1
        · exact List.mem_cons.mpr (Or.inl h1)
        · exact List.mem_cons.mpr (Or.inr ((h l).mp h1))
      · intro hm
        rcases List.mem_cons.mp hm with h1 | h1
        · exact List.mem_cons.mpr (Or.inl h1)
        · exact List.mem_cons.mpr (Or.inr ((h l).mpr h1))

/-- The dict-based RSS loop and the seen-set-based mofcom loop compute the
same sequence: the dict's values (insertion order) are the appended uniques. -/
theorem removeDupGo_eq_dedupeGo (xs : List NewsItem) :
    ∀ acc : List (String × NewsItem),
      (removeDupGo acc xs).map Prod.snd
        = acc.map Prod.snd ++ dedupeGo (acc.map Prod.fst) xs := by
  induction xs with
  | nil => intro acc; simp [removeDupGo, dedupeGo]
  | cons item rest ih =>
    intro acc
    by_cases hkeep : item.link ≠ "" ∧ ¬ (item.link ∈ acc.map Prod.fst)
    · have hnot : ¬ (item.link = "" ∨ item.link ∈ acc.map Prod.fst) := by
        intro hc
        rcases hc with h0 | hm
        · exact hkeep.1 h0
        · exact hkeep.2 hm
      simp only [removeDupGo, if_pos hkeep, dedupeGo, if_neg hnot]
      rw [ih]
      have hcongr := dedupeGo_seen_congr rest
        ((acc ++ [(item.link, item)]).map Prod.fst)
        (item.link :: acc.map Prod.fst)
        (by intro l; simp [List.mem_append, or_comm])
      rw [hcongr]
      simp
    · have hdrop : item.link = "" ∨ item.link ∈ acc.map Prod.fst := by
        by_cases h0 : item.link = ""
        · exact Or.inl h0
        · refine Or.inr ?_
          by_contra hm
          exact hkeep ⟨h0, hm⟩
      simp only [removeDupGo, if_neg hkeep, dedupeGo, if_pos hdrop]
      exact ih acc

/-- The two collectors' dedupe functions agree. -/
theorem remove_duplicates_eq_mofcom (xs : List NewsItem) :
    remove_duplicates xs = mofcom_dedupe xs := by
  have h := removeDupGo_eq_dedupeGo xs []
  simpa [remove_duplicates, mofcom_dedupe] using h

/-- Every item surviving the dedupe loop has a non-falsy link. -/
theorem dedupeGo_link_ne_empty (xs : List NewsItem) :
    ∀ seen, ∀ y ∈ dedupeGo seen xs, y.link ≠ "" := by
  induction xs with
  | nil => intro seen y hy; simp [dedupeGo] at hy
  | cons item rest ih =>
    intro seen y hy
    by_cases hl : item.link = "" ∨ item.link ∈ seen
    · rw [dedupeGo, if_pos hl] at hy
      exact ih seen y hy
    · rw [dedupeGo, if_neg hl] at hy
      rcases List.mem_cons.mp hy with h1 | h1
      · subst h1
        intro hc
        exact hl (Or.inl hc)
      · exact ih _ y h1

/-- The dedupe loop returns a sublist of its input (relative order kept). -/
theorem dedupeGo_sublist (xs : List NewsItem) :
    ∀ seen, (dedupeGo seen xs).Sublist xs := by
  induction xs with
  | nil => intro seen; simp [dedupeGo]
  | cons item rest ih =>
    intro seen
    by_cases hl : item.link = "" ∨ item.link ∈ seen
    · rw [dedupeGo, if_pos hl]
      exact (ih seen).cons item
    · rw [dedupeGo, if_neg hl]
      exact (ih (item.link :: seen)).cons₂ item

/-- The links of the dedupe loop's output are pairwise distinct and avoid the
seen set. -/
theorem dedupeGo_links_nodup (xs : List NewsItem) :
    ∀ seen, ((dedupeGo seen xs).map NewsItem.link).Nodup
      ∧ ∀ l ∈ (dedupeGo seen xs).map NewsItem.link, l ∉ seen := by
  induction xs with
  | nil => intro seen; simp [dedupeGo]
  | cons item rest ih =>
    intro seen
    by_cases hl : item.link = "" ∨ item.link ∈ seen
    · rw [dedupeGo, if_pos hl]
      exact ih seen
    · rw [dedupeGo, if_neg hl]
      obtain ⟨hnd, havoid⟩ := ih (item.link :: seen)
      constructor
      · refine List.nodup_cons.mpr ⟨?_, hnd⟩
        intro hc
        exact havoid item.link hc (List.mem_cons_self _ _)
      · intro l hlmem
        rcases List.mem_cons.mp hlmem with h1 | h1
        · subst h1
          intro hc
          exact hl (Or.inr hc)
        · intro hc
          exact havoid l h1 (List.mem_cons.mpr (Or.inr hc))

/-- Each item kept by the dedupe loop is the first occurrence of its link in
the input, and its link was not previously seen. -/
theorem dedupeGo_first_occurrence (xs : List NewsItem) :
    ∀ seen, ∀ y ∈ dedupeGo seen xs,
      y.link ∉ seen ∧ xs.find? (fun z => z.link == y.link) = some y := by
  induction xs with
  | nil => intro seen y hy; simp [dedupeGo] at hy
  | cons item rest ih =>
    intro seen y hy
    by_cases hl : item.link = "" ∨ item.link ∈ seen
    · rw [dedupeGo, if_pos hl] at hy
      obtain ⟨hns, hfind⟩ := ih seen y hy
      have hyne : y.link ≠ "" := dedupeGo_link_ne_empty rest seen y hy
      have hne : item.link ≠ y.link := by
        rcases hl with h0 | hm
        · intro hc; exact hyne (hc ▸ h0)
        · intro hc; exact hns (hc ▸ hm)
      refine ⟨hns, ?_⟩
      rw [List.find?_cons]
      have : (item.link == y.link) = false := by
        exact beq_false_of_ne hne
      rw [this]
      exact hfind
    · rw [dedupeGo, if_neg hl] at hy
      rcases List.mem_cons.mp hy with h1 | h1
      · subst h1
        refine ⟨fun hc => hl (Or.inr hc), ?_⟩
        rw [List.find?_cons]
        have : (y.link == y.link) = true := beq_self_eq_true _
        rw [this]
      · obtain ⟨hns, hfind⟩ := ih (item.link :: seen) y h1
        have hne : item.link ≠ y.link := by
          intro hc
          exact hns (hc ▸ List.mem_cons_self _ _)
        refine ⟨fun hc => hns (List.mem_cons.mpr (Or.inr hc)), ?_⟩
        rw [List.find?_cons]
        have : (item.link == y.link) = false := beq_false_of_ne hne
        rw [this]
        exact hfind

/-- Completeness: every input link that is non-empty and not yet seen has a
representative in the dedupe loop's output. -/
theorem dedupeGo_covers (xs : List NewsItem) :
    ∀ seen, ∀ y ∈ xs, y.link ≠ "" → y.link ∉ seen →
      ∃ z ∈ dedupeGo seen xs, z.link = y.link := by
  induction xs with
  | nil => intro seen y hy; simp at hy
  | cons item rest ih =>
    intro seen y hy hne hns
    by_cases hl : item.link = "" ∨ item.link ∈ seen
    · rw [dedupeGo, if_pos hl]
      have hyrest : y ∈ rest := by
        rcases List.mem_cons.mp hy with h1 | h1
        · exfalso
          subst h1
          rcases hl with h0 | hm
          · exact hne h0
          · exact hns hm
        · exact h1
      exact ih seen y hyrest hne hns
    · rw [dedupeGo, if_neg hl]
      by_cases heq : y.link = item.link
      · exact ⟨item, List.mem_cons_self _ _, heq.symm⟩
      · have hyrest : y ∈ rest := by
          rcases List.mem_cons.mp hy with h1 | h1
          · exact absurd (congrArg NewsItem.link h1) (by simpa using heq)
          · exact h1
        obtain ⟨z, hz, hzl⟩ := ih (item.link :: seen) y hyrest hne
          (by
            intro hc
            rcases List.mem_cons.mp hc with h1 | h1
            · exact heq h1
            · exact hns h1)
        exact ⟨z, List.mem_cons.mpr (Or.inr hz), hzl⟩

/-- Re-running the dedupe loop on its own output changes nothing: every kept
item's link is fresh relative to the seen set at its position. -/
theorem dedupeGo_idem (xs : List NewsItem) :
    ∀ seen, dedupeGo seen (dedupeGo seen xs) = dedupeGo seen xs := by
  induction xs with
  | nil => intro seen; simp [dedupeGo]
  | cons item rest ih =>
    intro seen
    by_cases hl : item.link = "" ∨ item.link ∈ seen
    · rw [dedupeGo, if_pos hl]
      exact ih seen
    · rw [dedupeGo, if_neg hl]
      conv_lhs => rw [dedupeGo, if_neg hl]
      refine congrArg _ ?_
      exact ih (item.link :: seen)

theorem rssCollect_append (fetch : Source → Except String (List NewsItem))
    (l₁ l₂ : List Source) :
    rssCollect fetch (l₁ ++ l₂) = rssCollect fetch l₁ ++ rssCollect fetch l₂ := by
  induction l₁ with
  | nil => rfl
  | cons s rest ih =>
    by_cases hs : s.source_type ≠ "rss"
    · simp only [List.cons_append, rssCollect, if_pos hs]
      exact ih
    · simp only [List.cons_append, rssCollect, if_neg hs]
      cases fetch s with
      | ok items => rw [List.append_assoc]; exact congrArg _ ih
      | error e => exact ih

theorem mofcomGather_append (l₁ l₂ : List (Except String (List NewsItem))) :
    mofcomGather (l₁ ++ l₂) = mofcomGather l₁ ++ mofcomGather l₂ := by
  induction l₁ with
  | nil => simp [mofcomGather]
  | cons r rest ih =>
    cases r with
    | ok items => simp [mofcomGather, ih]
    | error e => simp [mofcomGather, ih]

-- ### Claim theorems about dedupe and fan-out

/-- C3: `_remove_duplicates`/`_dedupe` return a sequence unique by link, in
which every kept item is the first occurrence of its link in the input, the
relative input order is preserved (sublist), every non-empty input link is
represented, both implementations agree, and the spec's concrete example
`dedupe([A(link=1), B(link=2), C(link=1)]) = [A, B]` holds. -/
theorem dedupe_first_seen_unique (xs : List NewsItem) :
    remove_duplicates xs = mofcom_dedupe xs
    ∧ (mofcom_dedupe xs).Sublist xs
    ∧ ((mofcom_dedupe xs).map NewsItem.link).Nodup
    ∧ (∀ y ∈ mofcom_dedupe xs, xs.find? (fun z => z.link == y.link) = some y)
    ∧ (∀ y ∈ xs, y.link ≠ "" → ∃ z ∈ mofcom_dedupe xs, z.link = y.link)
    ∧ (∀ A B C : NewsItem, A.link = "1" → B.link = "2" → C.link = "1" →
        mofcom_dedupe [A, B, C] = [A, B]) := by
  refine ⟨remove_duplicates_eq_mofcom xs, dedupeGo_sublist xs [],
    (dedupeGo_links_nodup xs []).1, ?_, ?_, ?_⟩
  · intro y hy
    exact (dedupeGo_first_occurrence xs [] y hy).2
  · intro y hy hne
    exact dedupeGo_covers xs [] y hy hne (by simp)
  · intro A B C hA hB hC
    simp [mofcom_dedupe, dedupeGo, hA, hB, hC]

/-- Witness for C3 at a concrete input (the spec's P2 example). -/
theorem dedupe_first_seen_unique_witness :
    mofcom_dedupe
      [{ title := "A", link := "1", description := "", pub_date := "",
         source_name := "", source_url := "", category := "", collected_at := "" },
       { title := "B", link := "2", description := "", pub_date := "",
         source_name := "", source_url := "", category := "", collected_at := "" },
       { title := "C", link := "1", description := "x", pub_date := "",
         source_name := "", source_url := "", category := "", collected_at := "" }]
    = [{ title := "A", link := "1", description := "", pub_date := "",
         source_name := "", source_url := "", category := "", collected_at := "" },
       { title := "B", link := "2", description := "", pub_date := "",
         source_name := "", source_url := "", category := "", collected_at := "" }] :=
  (dedupe_first_seen_unique []).2.2.2.2.2 _ _ _ rfl rfl rfl

/-- C9: both dedupe implementations are idempotent. -/
theorem dedupe_idempotent (xs : List NewsItem) :
    mofcom_dedupe (mofcom_dedupe xs) = mofcom_dedupe xs
    ∧ remove_duplicates (remove_duplicates xs) = remove_duplicates xs := by
  constructor
  · exact dedupeGo_idem xs []
  · rw [remove_duplicates_eq_mofcom xs,
      remove_duplicates_eq_mofcom (mofcom_dedupe xs)]
    exact dedupeGo_idem xs []

/-- Removing an empty-link item from anywhere in the input leaves the dedupe
loop's output unchanged, for every seen set. -/
theorem dedupeGo_drop_empty (it : NewsItem) (hit : it.link = "")
    (l₁ l₂ : List NewsItem) :
    ∀ seen, dedupeGo seen (l₁ ++ it :: l₂) = dedupeGo seen (l₁ ++ l₂) := by
  induction l₁ with
  | nil =>
    intro seen
    simp only [List.nil_append, dedupeGo]
    rw [if_pos (Or.inl hit)]
  | cons a rest ih =>
    intro seen
    simp only [List.cons_append, dedupeGo]
    by_cases hl : a.link = "" ∨ a.link ∈ seen
    · rw [if_pos hl, if_pos hl]
      exact ih seen
    · rw [if_neg hl, if_neg hl]
      exact congrArg _ (ih _)

/-- C10: dedupe drops every item whose link is missing/empty — the output
contains only items with a non-empty link (for both implementations), and an
empty-link item contributes nothing at all to the output. -/
theorem dedupe_drops_empty_link (xs : List NewsItem) :
    (∀ y ∈ mofcom_dedupe xs, y.link ≠ "")
    ∧ (∀ y ∈ remove_duplicates xs, y.link ≠ "")
    ∧ (∀ (l₁ l₂ : List NewsItem) (it : NewsItem), it.link = "" →
        mofcom_dedupe (l₁ ++ it :: l₂) = mofcom_dedupe (l₁ ++ l₂)) := by
  refine ⟨fun y hy => dedupeGo_link_ne_empty xs [] y hy, ?_, ?_⟩
  · intro y hy
    rw [remove_duplicates_eq_mofcom] at hy
    exact dedupeGo_link_ne_empty xs [] y hy
  · intro l₁ l₂ it hit
    exact dedupeGo_drop_empty it hit l₁ l₂ []

/-- C2: per-source failure isolation in `fetch_all` — a source whose fetch
raises contributes nothing and does not disturb the rest of the run; for the
two-source instance (one failing, one succeeding) the result is exactly the
successful source's deduplicated items; the analogous removal law holds for
`MofcomCollector.fetch_all`'s gathered results.  Totality of these Lean
functions reflects that the exception never escapes the collection run. -/
theorem fetch_all_source_isolation (sources₁ sources₂ : List Source) (sf : Source)
    (fetch : Source → Except String (List NewsItem)) (e : String)
    (hf : fetch sf = .error e) :
    rss_fetch_all (sources₁ ++ sf :: sources₂) fetch
        = rss_fetch_all (sources₁ ++ sources₂) fetch
    ∧ (∀ (s₂ : Source) (ys : List NewsItem), s₂.source_type = "rss" →
        fetch s₂ = .ok ys →
        rss_fetch_all [sf, s₂] fetch = remove_duplicates ys)
    ∧ (∀ rs₁ rs₂ : List (Except String (List NewsItem)),
        mofcom_fetch_all (rs₁ ++ .error e :: rs₂) = mofcom_fetch_all (rs₁ ++ rs₂)) := by
  have hsf : ∀ l : List Source, rssCollect fetch (sf :: l) = rssCollect fetch l := by
    intro l
    by_cases hs : sf.source_type ≠ "rss"
    · simp only [rssCollect, if_pos hs]
    · simp only [rssCollect, if_neg hs, hf]
  refine ⟨?_, ?_, ?_⟩
  · show remove_duplicates _ = remove_duplicates _
    rw [rssCollect_append, hsf, ← rssCollect_append]
  · intro s₂ ys hrss hok
    show remove_duplicates _ = remove_duplicates _
    rw [hsf [s₂]]
    have : rssCollect fetch [s₂] = ys := by
      simp only [rssCollect, if_neg (not_not.mpr hrss), hok, List.append_nil]
    rw [this]
  · intro rs₁ rs₂
    show mofcom_dedupe _ = mofcom_dedupe _
    rw [mofcomGather_append, mofcomGather_append]
    rfl

/-- Witness for C2: a failing source plus a succeeding source yield exactly
the successful source's deduplicated items. -/
theorem fetch_all_source_isolation_witness :
    rss_fetch_all [c2SrcFail, c2SrcOk] c2Fetch
      = remove_duplicates [sampleA, sampleB, sampleA] :=
  (fetch_all_source_isolation [] [c2SrcOk] c2SrcFail c2Fetch "boom" rfl).2.1
    c2SrcOk [sampleA, sampleB, sampleA] rfl rfl

/-- Witness for C10: surviving items have non-empty links, and an empty-link
item contributes nothing to the output. -/
theorem dedupe_drops_empty_link_witness :
    sampleA.link ≠ ""
    ∧ mofcom_dedupe [sampleA, sampleNoLink] = mofcom_dedupe [sampleA] :=
  ⟨(dedupe_drops_empty_link [sampleA, sampleNoLink]).1 sampleA (by decide),
   (dedupe_drops_empty_link []).2.2 [sampleA] [] sampleNoLink rfl⟩

-- ### Helper lemmas about the storage insert loop

/-- Rows of the insert result come from the table or from the new rows. -/
theorem execInsertRows_mem (new : List StoredItem) :
    ∀ rows, ∀ r ∈ execInsertRows rows new, r ∈ rows ∨ r ∈ new := by
  induction new with
  | nil =>
    intro rows r hr
    exact Or.inl hr
  | cons q rest ih =>
    intro rows r hr
    by_cases hc : rows.any (fun p => p.link == q.link)
    · rw [execInsertRows, if_pos hc] at hr
      rcases ih rows r hr with h1 | h1
      · exact Or.inl h1
      · exact Or.inr (List.mem_cons.mpr (Or.inr h1))
    · rw [execInsertRows, if_neg hc] at hr
      rcases ih (rows ++ [q]) r hr with h1 | h1
      · rcases List.mem_append.mp h1 with h2 | h2
        · exact Or.inl h2
        · exact Or.inr (List.mem_cons.mpr (Or.inl (by simpa using h2)))
      · exact Or.inr (List.mem_cons.mpr (Or.inr h1))

/-- Once a link is present in the table, later conflicting inserts are
no-ops: the rows carrying that link are unchanged by any further batch of
inserts. -/
theorem execInsertRows_filter_frozen (x : String) (new : List StoredItem) :
    ∀ rows, (∃ q ∈ rows, q.link = x) →
      (execInsertRows rows new).filter (fun r => r.link == x)
        = rows.filter (fun r => r.link == x) := by
  induction new with
  | nil => intro rows _; rfl
  | cons q rest ih =>
    intro rows hex
    by_cases hc : rows.any (fun p => p.link == q.link)
    · rw [execInsertRows, if_pos hc]
      exact ih rows hex
    · rw [execInsertRows, if_neg hc]
      have hqx : q.link ≠ x := by
        intro hqx
        obtain ⟨p, hp, hpx⟩ := hex
        apply hc
        exact List.any_eq_true.mpr ⟨p, hp, by rw [hpx, hqx]; exact beq_self_eq_true x⟩
      have hex' : ∃ p ∈ rows ++ [q], p.link = x := by
        obtain ⟨p, hp, hpx⟩ := hex
        exact ⟨p, List.mem_append.mpr (Or.inl hp), hpx⟩
      rw [ih (rows ++ [q]) hex', List.filter_append]
      have : [q].filter (fun r => r.link == x) = [] := by
        simp [hqx]
      rw [this, List.append_nil]

/-- Inserting a single fresh-link row appends it to the table. -/
theorem execInsertRows_fresh_single (rows : List StoredItem) (r : StoredItem)
    (h : ∀ q ∈ rows, q.link ≠ r.link) :
    execInsertRows rows [r] = rows ++ [r] := by
  have hc : rows.any (fun p => p.link == r.link) = false := by
    rw [List.any_eq_false]
    intro p hp
    simpa using h p hp
  rw [execInsertRows, if_neg (by rw [hc]; exact Bool.false_ne_true), execInsertRows]

/-- Every row produced by the `insert_rows` loop carries the batch key, a
non-empty link, and stores the item whose link it indexes. -/
theorem buildInsertRows_shape (fname : String) (news_items : List NewsItem) :
    ∀ r ∈ buildInsertRows fname news_items,
      r.batch_key = fname ∧ r.link = r.data.link ∧ r.link ≠ "" := by
  induction news_items with
  | nil => intro r hr; simp [buildInsertRows] at hr
  | cons item rest ih =>
    intro r hr
    by_cases h0 : item.link = ""
    · rw [buildInsertRows, if_pos h0] at hr
      exact ih r hr
    · rw [buildInsertRows, if_neg h0] at hr
      rcases List.mem_cons.mp hr with h1 | h1
      · subst h1
        exact ⟨rfl, rfl, h0⟩
      · exact ih r h1

/-- `save_news` keeps the table well-formed: the `link` column always equals
the stored record's `link` field. -/
theorem save_news_wf (db : NewsDB) (news_items : List NewsItem)
    (filename : Option String) (now : String)
    (hwf : ∀ r ∈ db.items, r.link = r.data.link) :
    ∀ r ∈ (save_news db news_items filename now).2.items, r.link = r.data.link := by
  intro r hr
  by_cases hempty : news_items = []
  · rw [save_news, if_pos hempty] at hr
    exact hwf r hr
  · rw [save_news, if_neg hempty] at hr
    simp only at hr
    rcases execInsertRows_mem _ _ r hr with h1 | h1
    · exact hwf r h1
    · exact (buildInsertRows_shape _ _ r h1).2.1

/-- Effect of saving one fresh-link item under a truthy batch key: the key is
reported back, the batch row is created if absent, and the row is appended. -/
theorem save_single_fresh (db : NewsDB) (A : NewsItem) (b1 now : String)
    (hx : A.link ≠ "") (hb1 : b1 ≠ "")
    (hfresh : ∀ r ∈ db.items, r.link ≠ A.link) :
    save_news db [A] (some b1) now
      = (some b1,
         ⟨if b1 ∈ db.batches then db.batches else db.batches ++ [b1],
          db.items ++ [⟨b1, A.link, A⟩]⟩) := by
  have hkey : effectiveKey (some b1) now = b1 := by
    simp [effectiveKey, hb1]
  have hbuild : buildInsertRows b1 [A] = [⟨b1, A.link, A⟩] := by
    simp [buildInsertRows, hx]
  have hexec : execInsertRows db.items [⟨b1, A.link, A⟩] = db.items ++ [⟨b1, A.link, A⟩] :=
    execInsertRows_fresh_single db.items _ (fun q hq => hfresh q hq)
  rw [save_news, if_neg (by simp : ¬([A] = ([] : List NewsItem)))]
  simp only [hkey, hbuild, hexec]

/-- C5: saving the same single fresh item under the same key twice reports
the key both times, leaves the table and batch rows untouched on the second
call, and stores exactly one row for the item's link, under that key. -/
theorem save_idempotent_per_key (db : NewsDB) (A : NewsItem) (b1 now₁ now₂ : String)
    (hx : A.link ≠ "") (hb1 : b1 ≠ "")
    (hfresh : ∀ r ∈ db.items, r.link ≠ A.link) :
    (save_news db [A] (some b1) now₁).1 = some b1
    ∧ (save_news (save_news db [A] (some b1) now₁).2 [A] (some b1) now₂).1 = some b1
    ∧ (save_news (save_news db [A] (some b1) now₁).2 [A] (some b1) now₂).2
        = (save_news db [A] (some b1) now₁).2
    ∧ (save_news (save_news db [A] (some b1) now₁).2 [A] (some b1) now₂).2.items.filter
        (fun r => r.link == A.link) = [⟨b1, A.link, A⟩] := by
  have hsave := save_single_fresh db A b1 now₁ hx hb1 hfresh
  have hkey : effectiveKey (some b1) now₂ = b1 := by
    simp [effectiveKey, hb1]
  have hbuild : buildInsertRows b1 [A] = [⟨b1, A.link, A⟩] := by
    simp [buildInsertRows, hx]
  rw [hsave]
  set db₁ : NewsDB :=
    ⟨if b1 ∈ db.batches then db.batches else db.batches ++ [b1],
     db.items ++ [⟨b1, A.link, A⟩]⟩ with hdb₁
  have hany : db₁.items.any (fun q => q.link == (⟨b1, A.link, A⟩ : StoredItem).link) = true := by
    refine List.any_eq_true.mpr ⟨⟨b1, A.link, A⟩, ?_, beq_self_eq_true _⟩
    rw [hdb₁]
    exact List.mem_append.mpr (Or.inr (List.mem_cons_self _ _))
  have hexec : execInsertRows db₁.items [⟨b1, A.link, A⟩] = db₁.items := by
    rw [execInsertRows, if_pos hany, execInsertRows]
  have hb1mem : b1 ∈ db₁.batches := by
    rw [hdb₁]
    by_cases hmem : b1 ∈ db.batches
    · rw [if_pos hmem]; exact hmem
    · rw [if_neg hmem]; exact List.mem_append.mpr (Or.inr (List.mem_cons_self _ _))
  have hsave₂ : save_news db₁ [A] (some b1) now₂ = (some b1, db₁) := by
    rw [save_news, if_neg (by simp : ¬([A] = ([] : List NewsItem)))]
    simp only [hkey, hbuild, hexec, if_pos hb1mem]
  rw [hsave₂]
  have hfiltnil : db.items.filter (fun r => r.link == A.link) = [] := by
    rw [List.filter_eq_nil_iff]
    intro r hr
    simpa using hfresh r hr
  refine ⟨rfl, rfl, rfl, ?_⟩
  rw [hdb₁]
  show (db.items ++ [(⟨b1, A.link, A⟩ : StoredItem)]).filter (fun r => r.link == A.link)
      = [(⟨b1, A.link, A⟩ : StoredItem)]
  rw [List.filter_append, hfiltnil, List.nil_append]
  simp

/-- C1: once an item's link is claimed by batch `b1`, a later save of any
item with the same link under a different batch key `b2` inserts nothing:
every row carrying that link stays under `b1`, and loading `b2` returns no
item with that link. -/
theorem global_link_uniqueness (db : NewsDB) (A : NewsItem) (items₂ : List NewsItem)
    (b1 b2 now₁ now₂ : String)
    (hx : A.link ≠ "") (hb1 : b1 ≠ "") (hb2 : b2 ≠ "") (hbb : b1 ≠ b2)
    (hwf : ∀ r ∈ db.items, r.link = r.data.link)
    (hfresh : ∀ r ∈ db.items, r.link ≠ A.link) :
    (∀ r ∈ (save_news (save_news db [A] (some b1) now₁).2 items₂ (some b2) now₂).2.items,
        r.link = A.link → r.batch_key = b1)
    ∧ (∀ it ∈ load_news
          (save_news (save_news db [A] (some b1) now₁).2 items₂ (some b2) now₂).2 (some b2),
        it.link ≠ A.link) := by
  have hsave := save_single_fresh db A b1 now₁ hx hb1 hfresh
  set row : StoredItem := ⟨b1, A.link, A⟩ with hrow
  have hdb₁items : (save_news db [A] (some b1) now₁).2.items = db.items ++ [row] := by
    rw [hsave]
  set db₁ := (save_news db [A] (some b1) now₁).2 with hdb₁
  set db₂ := (save_news db₁ items₂ (some b2) now₂).2 with hdb₂
  have hfiltnil : db.items.filter (fun r => r.link == A.link) = [] := by
    rw [List.filter_eq_nil_iff]
    intro r hr
    simpa using hfresh r hr
  have hfilt₁ : db₁.items.filter (fun r => r.link == A.link) = [row] := by
    rw [hdb₁items, List.filter_append, hfiltnil, List.nil_append]
    simp
  have hfilt₂ : db₂.items.filter (fun r => r.link == A.link) = [row] := by
    by_cases hempty : items₂ = []
    · rw [hdb₂, save_news, if_pos hempty]
      exact hfilt₁
    · rw [hdb₂, save_news, if_neg hempty]
      simp only
      rw [execInsertRows_filter_frozen A.link _ db₁.items
        ⟨row, by rw [hdb₁items]; exact List.mem_append.mpr (Or.inr (List.mem_cons_self _ _)), rfl⟩]
      exact hfilt₁
  have hconc₁ : ∀ r ∈ db₂.items, r.link = A.link → r.batch_key = b1 := by
    intro r hr hrl
    have hmem : r ∈ db₂.items.filter (fun q => q.link == A.link) :=
      List.mem_filter.mpr ⟨hr, by simp [hrl]⟩
    rw [hfilt₂] at hmem
    have : r = row := by simpa using hmem
    rw [this]
  have hwf₁ : ∀ r ∈ db₁.items, r.link = r.data.link := by
    rw [hdb₁]
    exact save_news_wf db [A] (some b1) now₁ hwf
  have hwf₂ : ∀ r ∈ db₂.items, r.link = r.data.link := by
    rw [hdb₂]
    exact save_news_wf db₁ items₂ (some b2) now₂ hwf₁
  refine ⟨hconc₁, ?_⟩
  intro it hit hlink
  rw [load_news] at hit
  simp only [if_neg hb2] at hit
  obtain ⟨r, hrmem, hrdata⟩ := List.mem_map.mp hit
  have hrfilt := List.mem_filter.mp hrmem
  have hrb2 : r.batch_key = b2 := by
    have := hrfilt.2
    simpa using this
  have hrl : r.link = A.link := by
    rw [hwf₂ r hrfilt.1, hrdata, hlink]
  have := hconc₁ r hrfilt.1 hrl
  exact hbb (this ▸ hrb2)

/-- Witness for C1: with an empty store, saving `sampleA` (link "1") under
"b1" and then `c1ItemB` (same link, different content) under "b2" leaves
`c1ItemB` absent from `load("b2")`. -/
theorem global_link_uniqueness_witness :
    c1ItemB ∉ load_news
      (save_news (save_news ⟨[], []⟩ [sampleA] (some "b1") "t1").2
        [c1ItemB] (some "b2") "t2").2 (some "b2") :=
  fun h =>
    absurd rfl
      ((global_link_uniqueness ⟨[], []⟩ sampleA [c1ItemB] "b1" "b2" "t1" "t2"
          (by decide) (by decide) (by decide) (by decide)
          (by intro r hr; exact absurd hr (List.not_mem_nil r))
          (by intro r hr; exact absurd hr (List.not_mem_nil r))).2
        c1ItemB h)

/-- Witness for C5: the double save of `sampleA` under "b1" on an empty
store reports "b1" both times and leaves one row. -/
theorem save_idempotent_per_key_witness :
    (save_news ⟨[], []⟩ [sampleA] (some "b1") "t1").1 = some "b1"
    ∧ (save_news (save_news ⟨[], []⟩ [sampleA] (some "b1") "t1").2
        [sampleA] (some "b1") "t2").1 = some "b1"
    ∧ (save_news (save_news ⟨[], []⟩ [sampleA] (some "b1") "t1").2
        [sampleA] (some "b1") "t2").2.items.filter
          (fun r => r.link == sampleA.link) = [⟨"b1", sampleA.link, sampleA⟩] :=
  have h := save_idempotent_per_key ⟨[], []⟩ sampleA "b1" "t1" "t2"
    (by decide) (by decide) (by intro r hr; exact absurd hr (List.not_mem_nil r))
  ⟨h.1, h.2.1, h.2.2.2⟩

/-- C4 counterexample: `save_news` called with an empty item list returns
`None`, not the caller-supplied batch key — so the claim's universal "for
every call" fails on the empty-input call. -/
theorem save_reports_key_counterexample :
    (save_news ⟨[], []⟩ [] (some "b1") "20240101_000000").1 = none
    ∧ (save_news ⟨[], []⟩ [] (some "b1") "20240101_000000").1 ≠ some "b1" := by
  constructor
  · rfl
  · intro h
    exact Option.noConfusion h

/-- C4 (amended): for every call to `save_news` with a NONEMPTY item list —
and likewise for `fetch_and_save` with a nonempty fetched list — the call
returns the batch key actually used: the caller-supplied key when a truthy
one is given, otherwise the generated timestamp-based key; this holds for
every starting database state, in particular when zero new rows are inserted
because every link already exists in the store. -/
theorem save_reports_effective_key (db : NewsDB) (items fetched : List NewsItem)
    (filename : Option String) (now : String)
    (hi : items ≠ []) (hf : fetched ≠ []) :
    (save_news db items filename now).1 = some (effectiveKey filename now)
    ∧ (fetch_and_save db fetched filename now).1
        = (some (effectiveKey filename now), fetched) := by
  constructor
  · rw [save_news, if_neg hi]
  · show ((save_news db fetched filename now).1, fetched) = _
    rw [save_news, if_neg hf]

/-- Witness for C4 (amended): saving `sampleA` (whose link "1" already
exists in the store under batch "b0") under key "b1" inserts nothing but
still reports "b1"; the table is unchanged. -/
theorem save_reports_effective_key_witness :
    (save_news c4DB [sampleA] (some "b1") "t").1 = some (effectiveKey (some "b1") "t")
    ∧ effectiveKey (some "b1") "t" = "b1"
    ∧ (save_news c4DB [sampleA] (some "b1") "t").2.items = c4DB.items :=
  ⟨(save_reports_effective_key c4DB [sampleA] [sampleA] (some "b1") "t"
      (by decide) (by decide)).1,
   by decide, by decide⟩

/-- The page loop collects exactly the pages before the first failing
transition `k`. -/
theorem collectLoop_until_fail (trans : Nat → Except String String) (url : String)
    (htmls : Nat → String) (k : Nat) (e : String) (hfail : trans k = .error e) :
    ∀ len a, (∀ m, a ≤ m → m < k → trans m = .ok (htmls m)) → a ≤ k → k < a + len →
      collectLoop trans url (List.range' a len)
        = (List.range' a (k - a)).map
            (fun n => (url ++ "#page-" ++ toString n, htmls n)) := by
  intro len
  induction len with
  | zero =>
    intro a _ ha hlt
    omega
  | succ n ih =>
    intro a hok ha hlt
    rw [List.range'_succ]
    by_cases hak : a = k
    · subst hak
      rw [collectLoop, hfail]
      have : a - a = 0 := by omega
      simp [this]
    · have halt : a < k := lt_of_le_of_ne ha hak
      have hoka : trans a = .ok (htmls a) := hok a le_rfl halt
      rw [collectLoop, hoka]
      rw [ih (a + 1) (fun m hm hmk => hok m (by omega) hmk) (by omega) (by omega)]
      have hsplit : k - a = (k - (a + 1)) + 1 := by omega
      rw [hsplit, List.range'_succ, List.map_cons]

/-- C6: pagination partial success — with `totalPages` discovered pages, if
the transition to page `k` (2 ≤ k ≤ totalPages) fails after pages 2..k-1
succeeded, `_collect_paginated_pages` stops and returns exactly the first
page plus pages 2..k-1.  The function is total: the page-k failure is
swallowed by the loop's `except ... break` and never escapes. -/
theorem pagination_partial_success (url firstHtml : String) (totalPages k : Nat)
    (trans : Nat → Except String String) (htmls : Nat → String) (e : String)
    (h2 : 2 ≤ k) (hkN : k ≤ totalPages)
    (hok : ∀ m, 2 ≤ m → m < k → trans m = .ok (htmls m))
    (hfail : trans k = .error e) :
    collect_paginated_pages url firstHtml totalPages trans
      = (url, firstHtml) ::
        (List.range' 2 (k - 2)).map (fun n => (url ++ "#page-" ++ toString n, htmls n)) := by
  have hN : ¬ (totalPages ≤ 1) := by omega
  rw [collect_paginated_pages]
  simp only [if_neg hN]
  rw [collectLoop_until_fail trans url htmls k e hfail (totalPages - 1) 2 hok h2 (by omega)]
  rfl

/-- Witness for C6: a 5-page source whose page-3 transition times out yields
pages 1-2 only. -/
theorem pagination_partial_success_witness :
    collect_paginated_pages "u" "h1" 5 c6Trans = [("u", "h1"), ("u#page-2", "h2")] := by
  rw [pagination_partial_success "u" "h1" 5 3 c6Trans (fun n => "h" ++ toString n)
    "timeout" (by omega) (by omega)
    (by
      intro m hm hm3
      have hm2 : m = 2 := by omega
      subst hm2
      rfl)
    rfl]
  rfl

/-- C7: an entry with a missing/empty title or link is rejected by
`_parse_entry` and absent from the strategy's output; an entry with both
present becomes a canonical item carrying that title and link. -/
theorem parse_entry_requires_title_link (entry : FeedEntry) (source : Source) (now : String) :
    ((entry.title.getD "" = "" ∨ entry.link.getD "" = "") →
        parse_entry entry source now = none)
    ∧ (entry.title.getD "" ≠ "" → entry.link.getD "" ≠ "" →
        Option.map NewsItem.title (parse_entry entry source now) = some (entry.title.getD "")
        ∧ Option.map NewsItem.link (parse_entry entry source now) = some (entry.link.getD ""))
    ∧ (parse_entry entry source now = none →
        ∀ l₁ l₂, parse_entries (l₁ ++ entry :: l₂) source now
          = parse_entries (l₁ ++ l₂) source now) := by
  refine ⟨?_, ?_, ?_⟩
  · intro h
    rw [parse_entry, if_pos h]
  · intro ht hl
    rw [parse_entry, if_neg (by rintro (h | h); exact ht h; exact hl h)]
    constructor <;> rfl
  · intro h l₁ l₂
    simp [parse_entries, List.filterMap_append, List.filterMap_cons, h]

/-- Witness for C7: an entry without a title is rejected. -/
theorem parse_entry_requires_title_link_witness :
    parse_entry c7EntryNoTitle c7Source "t" = none :=
  (parse_entry_requires_title_link c7EntryNoTitle c7Source "t").1 (Or.inl rfl)

theorem pyOr_of_truthy (a b : JVal) (h : pyTruthy a = true) : pyOr a b = a := by
  simp [pyOr, h]

theorem jstrParts_map (xs : List String) : jstrParts (xs.map JVal.jstr) = xs := by
  induction xs with
  | nil => rfl
  | cons x rest ih =>
    simp only [List.map_cons, jstrParts, List.filterMap_cons] at ih ⊢
    rw [ih]

/-- C8: World Bank JSON normalization — for a record with a truthy string
link, a list-typed title is joined (its string parts, single spaces) into
one flat string; a dict-typed title resolves to its keyed value; another
non-list shape (a number here) is stringified rather than failing; and a
list-typed `descr` is joined the same way into the item's description. -/
theorem wb_title_descr_normalization (source : OrgSource) (now : String)
    (kvs : List (String × JVal)) (l : String)
    (hurl : dget kvs "url" = some (.jstr l)) (hl : l ≠ "") :
    (∀ xs : List String, dget kvs "title" = some (.jlist (xs.map JVal.jstr)) →
        " ".intercalate xs ≠ "" →
        Option.map WbItem.title (wbEntryToItem source now kvs)
          = some (.jstr (" ".intercalate xs)))
    ∧ (∀ (m : List (String × JVal)) (v : JVal),
        dget kvs "title" = some (.jdict m) → dget m "value" = some v →
        pyTruthy v = true →
        Option.map WbItem.title (wbEntryToItem source now kvs) = some v)
    ∧ (∀ n : Int, dget kvs "title" = some (.jnum n) → n ≠ 0 →
        pyStr (.jnum n) ≠ "" →
        Option.map WbItem.title (wbEntryToItem source now kvs)
          = some (.jstr (pyStr (.jnum n))))
    ∧ (∀ (tt : String) (ds : List String),
        dget kvs "title" = some (.jstr tt) → tt ≠ "" →
        dget kvs "descr" = some (.jlist (ds.map JVal.jstr)) → ds ≠ [] →
        Option.map WbItem.description (wbEntryToItem source now kvs)
          = some (pyStrip (" ".intercalate ds))) := by
  have hLtrue : pyTruthy (JVal.jstr l) = true := by simp [pyTruthy, hl]
  have hjurl : jget kvs "url" = JVal.jstr l := by simp [jget, hurl]
  have hlinkval : pyOr (pyOr (jget kvs "url") (jget kvs "link")) (.jstr "") = .jstr l := by
    rw [hjurl, pyOr_of_truthy _ _ hLtrue, pyOr_of_truthy _ _ hLtrue]
  refine ⟨?_, ?_, ?_, ?_⟩
  · intro xs ht hj
    have hxs : xs.map JVal.jstr ≠ [] := by
      intro hh
      exact hj (by rw [List.map_eq_nil_iff.mp hh]; rfl)
    have htr : pyTruthy (JVal.jlist (xs.map JVal.jstr)) = true := by
      cases hxx : xs.map JVal.jstr with
      | nil => exact absurd hxx hxs
      | cons a as => simp [pyTruthy]
    have hraw : pyOr (jget kvs "title") (.jstr "") = .jlist (xs.map JVal.jstr) := by
      simp only [jget, ht, Option.getD_some]
      exact pyOr_of_truthy _ _ htr
    have htitle' : wbNormTitle (.jlist (xs.map JVal.jstr)) = .jstr (" ".intercalate xs) := by
      simp [wbNormTitle, jstrParts_map]
    have hTtrue : pyTruthy (JVal.jstr (" ".intercalate xs)) = true := by
      simp [pyTruthy, hj]
    simp [wbEntryToItem, hraw, htitle', hlinkval, hTtrue, hLtrue]
  · intro m v ht hval hv
    have hm : m ≠ [] := by
      intro hh
      rw [hh] at hval
      simp [dget] at hval
    have htr : pyTruthy (JVal.jdict m) = true := by
      cases m with
      | nil => exact absurd rfl hm
      | cons a as => simp [pyTruthy]
    have hraw : pyOr (jget kvs "title") (.jstr "") = .jdict m := by
      simp only [jget, ht, Option.getD_some]
      exact pyOr_of_truthy _ _ htr
    have htitle' : wbNormTitle (.jdict m) = v := by
      simp only [wbNormTitle, hval, Option.getD_some]
      exact pyOr_of_truthy _ _ hv
    simp [wbEntryToItem, hraw, htitle', hlinkval, hv, hLtrue]
  · intro n ht hn hs
    have htr : pyTruthy (JVal.jnum n) = true := by simp [pyTruthy, hn]
    have hraw : pyOr (jget kvs "title") (.jstr "") = .jnum n := by
      simp only [jget, ht, Option.getD_some]
      exact pyOr_of_truthy _ _ htr
    have htitle' : wbNormTitle (.jnum n) = .jstr (pyStr (.jnum n)) := rfl
    have hTtrue : pyTruthy (JVal.jstr (pyStr (.jnum n))) = true := by
      simp [pyTruthy, hs]
    simp [wbEntryToItem, hraw, htitle', hlinkval, hTtrue, hLtrue]
  · intro tt ds ht htt hdescr hds
    have hTtrue : pyTruthy (JVal.jstr tt) = true := by simp [pyTruthy, htt]
    have hraw : pyOr (jget kvs "title") (.jstr "") = .jstr tt := by
      simp only [jget, ht, Option.getD_some]
      exact pyOr_of_truthy _ _ hTtrue
    have htitle' : wbNormTitle (.jstr tt) = .jstr tt := rfl
    have hdmap : ds.map JVal.jstr ≠ [] := by
      intro hh
      exact hds (List.map_eq_nil_iff.mp hh)
    have htrD : pyTruthy (JVal.jlist (ds.map JVal.jstr)) = true := by
      cases hxx : ds.map JVal.jstr with
      | nil => exact absurd hxx hdmap
      | cons a as => simp [pyTruthy]
    have hrawD : pyOr (pyOr (jget kvs "descr") (jget kvs "content")) (.jstr "")
        = .jlist (ds.map JVal.jstr) := by
      have h1 : jget kvs "descr" = .jlist (ds.map JVal.jstr) := by
        simp [jget, hdescr]
      rw [h1, pyOr_of_truthy _ _ htrD, pyOr_of_truthy _ _ htrD]
    have hdescr' : wbNormDescr (.jlist (ds.map JVal.jstr)) = " ".intercalate ds := by
      simp [wbNormDescr, jstrParts_map]
    simp [wbEntryToItem, hraw, htitle', hrawD, hdescr', hlinkval, hTtrue, hLtrue]

/-- Witness for C8: a record with a two-part list title yields an item whose
title is the space-joined flat string. -/
theorem wb_title_descr_normalization_witness :
    Option.map WbItem.title (wbEntryToItem c8Source "t" c8Entry)
      = some (.jstr (" ".intercalate ["Global", "Report"])) :=
  (wb_title_descr_normalization c8Source "t" c8Entry "https://wb.example/doc1"
      rfl (by decide)).1
    ["Global", "Report"] rfl (by decide)

